import Mathlib

/-!
Shallow embedding of the Market Signal Consensus Engine of `src/server/index.js`
(Express server: technical indicators, prediction scorer, hourly lock scheduler,
trader discovery, whale-consensus aggregation).

Conventions of the embedding:
* JavaScript numbers are modelled as exact rationals `ℚ` (the code performs only
  field operations and comparisons; every claim settled here is robust to the
  float/real distinction, which is noted where relevant).
* `null` / absent values are `Option`.
* JavaScript truthiness of a number (`0` and `null` are falsy) is `truthyQ`.
* `Array.prototype.slice` with possibly negative indices is `jsSlice`
  (ECMAScript clamping semantics).
* `Math.round` (round half toward +∞) is `jsRound`.
* The only deliberate re-encoding: `serverBb` in the source returns
  `upper = mid + 2*sqrt(var)` and `lower = mid - 2*sqrt(var)`; the scorer only
  uses the band through the position test `pos = (cur-lower)/(upper-lower)`
  compared with `0.15` and `0.85`.  Since `sqrt` is irrational, the embedding
  keeps `(mid, var)` and performs the equivalent sqrt-free comparison:
  `pos > 0.85 ↔ cur - mid > 1.4*sqrt(var) ↔ cur - mid > 0 ∧ (cur-mid)^2 > 1.96*var`
  (and symmetrically for `pos < 0.15`); when `var = 0` the source divides `0/0`,
  producing `NaN`, and both comparisons are false — embedded as the no-score case.
-/

/- Batteries marks the `Rat` field operations `@[irreducible]`; restoring the
default reducibility lets `decide` evaluate concrete rational computations. -/
attribute [local semireducible] Rat.add Rat.mul Rat.inv Rat.sub

set_option maxRecDepth 100000

namespace Bott

/-- ECMAScript `Array.prototype.slice(s, e)` with negative-index clamping. -/
def jsSlice (l : List ℚ) (s e : Int) : List ℚ :=
  let len : Int := l.length
  let s' : Nat := (if s < 0 then max (len + s) 0 else min s len).toNat
  let e' : Nat := (if e < 0 then max (len + e) 0 else min e len).toNat
  (l.take e').drop s'

/-- JavaScript truthiness of a nullable number: `null` and `0` are falsy. -/
def truthyQ : Option ℚ → Bool
  | none => false
  | some q => decide (q ≠ 0)

/-- JavaScript `Math.round`: round half toward positive infinity. -/
def jsRound (x : ℚ) : ℤ := ⌊x + 1/2⌋

/-- JavaScript `Math.min(...list)` for a nonempty list (callers guard emptiness). -/
def jsMin : List ℚ → ℚ
  | [] => 0
  | x :: xs => xs.foldl min x

/-- JavaScript `Math.max(...list)` for a nonempty list (callers guard emptiness). -/
def jsMax : List ℚ → ℚ
  | [] => 0
  | x :: xs => xs.foldl max x

/-- Successive deltas `d[i] - d[i-1]`, as built by `serverRsi`'s first loop. -/
def deltas (l : List ℚ) : List ℚ := List.zipWith (fun prev next => next - prev) l l.tail

/-- Value of `serverSma` when defined: mean of the last `p` entries (`d.slice(-p)`). -/
def serverSmaVal (d : List ℚ) (p : Nat) : ℚ := (jsSlice d (-(p : Int)) d.length).sum / p

/-- Source `serverSma(d,p)`: null when fewer than `p` points. -/
def serverSma (d : List ℚ) (p : Nat) : Option ℚ :=
  if d.length < p then none else some (serverSmaVal d p)

/-- Value of `serverEma` when defined: SMA seed over the first `p` points, then
the EMA recurrence `e = d[i]*k + e*(1-k)` with `k = 2/(p+1)` over the rest. -/
def serverEmaVal (d : List ℚ) (p : Nat) : ℚ :=
  let k : ℚ := 2 / (p + 1)
  (d.drop p).foldl (fun e x => x * k + e * (1 - k)) ((d.take p).sum / p)

/-- Source `serverEma(d,p)`: null when fewer than `p` points. -/
def serverEma (d : List ℚ) (p : Nat) : Option ℚ :=
  if d.length < p then none else some (serverEmaVal d p)

/-- Source `serverRsi(d,p=14)`: Wilder-style RSI over the last `p` deltas;
returns `100` when the loss average is zero. -/
def serverRsi (d : List ℚ) (p : Nat := 14) : Option ℚ :=
  if d.length < p + 1 then none else
  let c := deltas d
  let r := jsSlice c (-(p : Int)) c.length
  let g := r.filter (fun x => decide (0 < x))
  let l := (r.filter (fun x => decide (x < 0))).map (fun x => -x)
  let ag : ℚ := if g.length ≠ 0 then g.sum / p else 0
  let al : ℚ := if l.length ≠ 0 then l.sum / p else 0
  if al = 0 then some 100 else some (100 - 100 / (1 + ag / al))

/-- Result record of `serverMacd`. -/
structure MacdR where
  value : ℚ
  bullish : Bool
  deriving DecidableEq

/-- Source `serverMacd(d)`: `ema(12) - ema(26)`, bullish iff positive;
null when fewer than 26 points. -/
def serverMacd (d : List ℚ) : Option MacdR :=
  if d.length < 26 then none else
  let m := serverEmaVal d 12 - serverEmaVal d 26
  some ⟨m, decide (0 < m)⟩

/-- Result record of `serverBb`: the band midpoint and the variance of the last
`p` points.  The source stores `upper = mid + 2σ` and `lower = mid - 2σ`;
consumers of the embedding use the sqrt-free comparisons documented above. -/
structure BBR where
  mid : ℚ
  svar : ℚ
  deriving DecidableEq

/-- Source `serverBb(d,p=20)`: null when fewer than `p` points. -/
def serverBb (d : List ℚ) (p : Nat := 20) : Option BBR :=
  if d.length < p then none else
  let s := serverSmaVal d p
  let sl := jsSlice d (-(p : Int)) d.length
  some ⟨s, (sl.map (fun x => (x - s) ^ 2)).sum / p⟩

/-- Result record of `serverEmaCrossover`. -/
structure EmaCross where
  crossUp : Bool
  crossDown : Bool
  bullish : Bool
  deriving DecidableEq

/-- Source `serverEmaCrossover(prices)`: EMA-9 vs EMA-21 now and one step back.
Null when fewer than 25 points, or when any of the four EMA values is falsy
(the source tests `!e9||!e21||!e9p||!e21p`, so an EMA equal to `0` also yields null). -/
def serverEmaCrossover (prices : List ℚ) : Option EmaCross :=
  if prices.length < 25 then none else
  let e9 := serverEmaVal prices 9
  let e21 := serverEmaVal prices 21
  let e9p := serverEmaVal (jsSlice prices 0 (-1)) 9
  let e21p := serverEmaVal (jsSlice prices 0 (-1)) 21
  if e9 = 0 ∨ e21 = 0 ∨ e9p = 0 ∨ e21p = 0 then none
  else some ⟨decide (e9p ≤ e21p ∧ e21 < e9), decide (e21p ≤ e9p ∧ e9 < e21), decide (e21 < e9)⟩

/-- Stochastic-RSI classification labels. -/
inductive StochSig where
  | overbought | oversold | bullishS | bearishS | neutralS
  deriving DecidableEq

/-- Result record of `serverStochRsi`. -/
structure StochR where
  k : ℚ
  signal : StochSig
  deriving DecidableEq

/-- One entry of the rolling RSI series inside `serverStochRsi`: the loop
`if (d > 0) g += d; else l -= d` over the deltas of the window
`prices.slice(i-rp-1, i)`, then `100 - 100/(1 + g/max(l,0.001))`. -/
def stochRsiEntry (prices : List ℚ) (rp i : Nat) : ℚ :=
  let sl := jsSlice prices ((i : Int) - (rp : Int) - 1) i
  let gl := (deltas sl).foldl
    (fun gl d => if 0 < d then (gl.1 + d, gl.2) else (gl.1, gl.2 - d)) ((0 : ℚ), (0 : ℚ))
  100 - 100 / (1 + gl.1 / max gl.2 (1/1000))

/-- Source `serverStochRsi(prices,rp=14,sp=14)`: rolling RSI series for
`i = rp .. prices.length`, then min-max normalisation of the last `sp` entries. -/
def serverStochRsi (prices : List ℚ) (rp : Nat := 14) (sp : Nat := 14) : Option StochR :=
  if prices.length < rp + sp then none else
  let rs := (List.range' rp (prices.length + 1 - rp)).map (stochRsiEntry prices rp)
  if rs.length < sp then none else
  let recent := jsSlice rs (-(sp : Int)) rs.length
  let mn := jsMin recent
  let mx := jsMax recent
  if mx = mn then some ⟨50, .neutralS⟩ else
  let k := (rs.getLastD 0 - mn) / (mx - mn) * 100
  some ⟨k, if 80 < k then .overbought else if k < 20 then .oversold
           else if 50 < k then .bullishS else .bearishS⟩

/-- Velocity classification labels. -/
inductive VelSig where
  | accUp | accDown | decUp | decDown | neutralV
  deriving DecidableEq

/-- Result record of `serverPriceVelocity`. -/
structure VelR where
  velocity : ℚ
  acceleration : ℚ
  signal : VelSig
  deriving DecidableEq

/-- Source `serverPriceVelocity(prices)`: two 3-step rates of change taken at the
end and 4 points back; null when fewer than 10 points. -/
def serverPriceVelocity (prices : List ℚ) : Option VelR :=
  if prices.length < 10 then none else
  let n := prices.length
  let v1 := (prices.getD (n - 1) 0 - prices.getD (n - 4) 0) / 3
  let v2 := (prices.getD (n - 5) 0 - prices.getD (n - 8) 0) / 3
  let acc := v1 - v2
  some ⟨v1, acc,
    if 0 < v1 ∧ 0 < acc then .accUp
    else if v1 < 0 ∧ acc < 0 then .accDown
    else if 0 < v1 ∧ acc < 0 then .decUp
    else if v1 < 0 ∧ 0 < acc then .decDown
    else .neutralV⟩

/-! ### The scorer `serverMakePrediction`

The source accumulates `bullScore` / `bearScore` through seven guarded blocks.
The embedding gives each block its `(bull, bear)` contribution pair; the scorer
sums them in source order. -/

/-- Block 1 (momentum) of `serverMakePrediction`. -/
def velDelta (prices : List ℚ) : ℚ × ℚ :=
  match serverPriceVelocity prices with
  | none => (0, 0)
  | some v =>
    match v.signal with
    | .accUp => (3, 0)
    | .decUp => (1, 0)
    | .accDown => (0, 3)
    | .decDown => (0, 1)
    | .neutralV => (0, 0)

/-- Block 2 (RSI) of `serverMakePrediction` (the source tests `rs !== null`). -/
def rsiDelta (prices : List ℚ) : ℚ × ℚ :=
  match serverRsi prices with
  | none => (0, 0)
  | some r =>
    if r < 30 then (5/2, 0)
    else if 70 < r then (0, 5/2)
    else if r < 45 then (1, 0)
    else if 55 < r then (0, 1)
    else (0, 0)

/-- Block 3 (EMA crossover) of `serverMakePrediction`. -/
def emaXDelta (prices : List ℚ) : ℚ × ℚ :=
  match serverEmaCrossover prices with
  | none => (0, 0)
  | some ec =>
    if ec.crossUp then (3, 0)
    else if ec.crossDown then (0, 3)
    else if ec.bullish then (3/2, 0)
    else (0, 3/2)

/-- Block 4 (MACD) of `serverMakePrediction`. -/
def macdDelta (prices : List ℚ) : ℚ × ℚ :=
  match serverMacd prices with
  | none => (0, 0)
  | some mc => if mc.bullish then (3/2, 0) else (0, 3/2)

/-- Block 5 (Bollinger band position) of `serverMakePrediction`, in the
sqrt-free form documented in the header (`pos<0.15` / `pos>0.85`; `var = 0`
gives `NaN` comparisons in the source, hence no score). -/
def bbDelta (prices : List ℚ) : ℚ × ℚ :=
  match serverBb prices with
  | none => (0, 0)
  | some b =>
    let cur := prices.getLastD 0
    if b.svar = 0 then (0, 0)
    else if 0 < b.mid - cur ∧ (49/25) * b.svar < (b.mid - cur) ^ 2 then (2, 0)
    else if 0 < cur - b.mid ∧ (49/25) * b.svar < (cur - b.mid) ^ 2 then (0, 2)
    else (0, 0)

/-- Block 6 (stochastic RSI) of `serverMakePrediction`. -/
def stochDelta (prices : List ℚ) : ℚ × ℚ :=
  match serverStochRsi prices with
  | none => (0, 0)
  | some sr =>
    match sr.signal with
    | .oversold => (2, 0)
    | .overbought => (0, 2)
    | _ => (0, 0)

/-- Block 7 (price vs price-to-beat) of `serverMakePrediction`
(the source tests `if (ptbPrice)`, so `0` is treated as absent). -/
def ptbDelta (prices : List ℚ) (ptbPrice : Option ℚ) : ℚ × ℚ :=
  match ptbPrice with
  | none => (0, 0)
  | some p =>
    if p = 0 then (0, 0)
    else
      let cur := prices.getLastD 0
      if 200 < |cur - p| then (if p < cur then (1/2, 0) else (0, 1/2)) else (0, 0)

/-- Total bull score of `serverMakePrediction` (sum of the blocks in source order). -/
def bullScoreOf (prices : List ℚ) (ptbPrice : Option ℚ) : ℚ :=
  (velDelta prices).1 + (rsiDelta prices).1 + (emaXDelta prices).1 +
    (macdDelta prices).1 + (bbDelta prices).1 + (stochDelta prices).1 +
    (ptbDelta prices ptbPrice).1

/-- Total bear score of `serverMakePrediction`. -/
def bearScoreOf (prices : List ℚ) (ptbPrice : Option ℚ) : ℚ :=
  (velDelta prices).2 + (rsiDelta prices).2 + (emaXDelta prices).2 +
    (macdDelta prices).2 + (bbDelta prices).2 + (stochDelta prices).2 +
    (ptbDelta prices ptbPrice).2

/-- Result record of `serverMakePrediction`. -/
structure PredResult where
  willBeat : Bool
  confidence : ℤ
  bullScore : ℚ
  bearScore : ℚ
  margin : ℚ
  deriving DecidableEq

/-- Source `serverMakePrediction(prices, ptbPrice)`: null under 26 points,
otherwise the weighted tally with
`total = bullScore + bearScore || 1`, `bullPct = bullScore/total`,
`margin = |bullPct - 0.5| * 2` and
`confidence = Math.round(Math.max(50, Math.min(88, 52 + margin*36)))`. -/
def serverMakePrediction (prices : List ℚ) (ptbPrice : Option ℚ) : Option PredResult :=
  if prices.length < 26 then none else
  let bull := bullScoreOf prices ptbPrice
  let bear := bearScoreOf prices ptbPrice
  let total := if bull + bear = 0 then 1 else bull + bear
  let bullPct := bull / total
  let margin := |bullPct - 1/2| * 2
  some ⟨decide (1/2 < bullPct), jsRound (max 50 (min 88 (52 + margin * 36))), bull, bear, margin⟩

/-! ### The hourly lock scheduler

State held by the server: `serverHourlyPredLock = { hour, prediction, ts }` and
`serverHourlyPtb = { price, hour, timestamp }`.  Three mutators touch the lock
within an hour window: the 60-second scheduler tick `runAutoPrediction`, the
HTTP handler `POST /api/pred-lock-hourly`, and the 1-second reset timer
(`minutes === 0 && seconds < 5`).  The current UTC hour `h` is a parameter;
external fetch results and clock reads are event data. -/

/-- The prediction payload stored in `serverHourlyPredLock`
(`{willBeat, confidence, bullScore, bearScore}`). -/
structure LockPred where
  willBeat : Bool
  confidence : ℤ
  bullScore : ℚ
  bearScore : ℚ
  deriving DecidableEq

/-- The `serverHourlyPredLock` global (initially `{hour:-1, prediction:null, ts:0}`). -/
structure LockState where
  hour : ℤ
  prediction : Option LockPred
  ts : ℤ
  deriving DecidableEq

/-- The `serverHourlyPtb` global (initially `{price:null, hour:-1, timestamp:0}`). -/
structure PtbState where
  price : Option ℚ
  hour : ℤ
  timestamp : ℤ
  deriving DecidableEq

/-- The mutable server state relevant to the hourly prediction lock. -/
structure SrvState where
  lock : LockState
  ptb : PtbState
  deriving DecidableEq

/-- The state at server start. -/
def initialSrvState : SrvState := ⟨⟨-1, none, 0⟩, ⟨none, -1, 0⟩⟩

/-- Commit-offset computation of `runAutoPrediction`
(`MIN_WAIT=2, MAX_WAIT=15, CLOSE=30, CLEAR=150`, then the margin adjustment). -/
def serverLockAfter (priceDiff margin : ℚ) : ℚ :=
  let base : ℚ :=
    if 150 ≤ priceDiff then 2
    else if priceDiff ≤ 30 then 15
    else 15 - ((priceDiff - 30) / (150 - 30)) * (15 - 2)
  if 1/2 < margin then max 2 (base - margin * 3) else base

/-- Events that can touch the lock within one hour window. -/
inductive LockEv where
  /-- One `runAutoPrediction` run: the kline fetch result, the hourly-open
  fetch result (used only when no PTB is set), the minute of the hour, and
  `Date.now()`. -/
  | tick (klines : Option (List ℚ)) (hourOpen : Option ℚ) (minutesIn : Nat) (now : ℤ)
  /-- One `POST /api/pred-lock-hourly` with body `{hour, prediction, ts}`. -/
  | post (reqHour : ℤ) (pred : Option LockPred) (tsBody : Option ℤ) (now : ℤ)
  /-- One firing of the 1-second reset timer at wall time `minute:second`. -/
  | reset (minute second : Nat)
  deriving DecidableEq

/-- Semantics of `runAutoPrediction` at current UTC hour `h`. -/
def runAutoPrediction (h : ℤ) (s : SrvState) (klines : Option (List ℚ))
    (hourOpen : Option ℚ) (minutesIn : Nat) (now : ℤ) : SrvState :=
  if s.lock.hour = h ∧ s.lock.prediction ≠ none then s
  else
    match klines with
    | none => s
    | some prices =>
      if prices.length < 26 then s
      else
        let ptbPrice : Option ℚ := if s.ptb.hour = h then s.ptb.price else none
        let s1 : SrvState :=
          if truthyQ ptbPrice then s
          else
            match hourOpen with
            | some op => if 30000 < op ∧ op < 200000 then { s with ptb := ⟨some op, h, now⟩ } else s
            | none => s
        match serverMakePrediction prices s1.ptb.price with
        | none => s1
        | some r =>
          let priceDiff : ℚ :=
            if truthyQ s1.ptb.price then |prices.getLastD 0 - s1.ptb.price.getD 0| else 999
          let lockAfter := serverLockAfter priceDiff r.margin
          if lockAfter ≤ (minutesIn : ℚ) then
            { s1 with lock := ⟨h, some ⟨r.willBeat, r.confidence, r.bullScore, r.bearScore⟩, now⟩ }
          else s1

/-- Semantics of `POST /api/pred-lock-hourly` at current UTC hour `h`:
accepted only for the current hour with a truthy prediction, and only when no
lock is held for this hour; the stored `ts` is `ts || Date.now()`. -/
def postLockHourly (h : ℤ) (s : SrvState) (reqHour : ℤ) (pred : Option LockPred)
    (tsBody : Option ℤ) (now : ℤ) : SrvState :=
  if reqHour = h ∧ pred ≠ none then
    if s.lock.hour ≠ h then
      { s with lock := ⟨reqHour, pred,
          match tsBody with | some v => if v = 0 then now else v | none => now⟩ }
    else s
  else s

/-- Semantics of one firing of the reset interval
(`if (now.getMinutes() === 0 && now.getSeconds() < 5) reset`). -/
def resetTimer (s : SrvState) (minute second : Nat) : SrvState :=
  if minute = 0 ∧ second < 5 then { s with lock := ⟨-1, none, 0⟩ } else s

/-- One step of the lock state machine within the hour window `h`. -/
def lockStep (h : ℤ) (s : SrvState) : LockEv → SrvState
  | .tick klines hourOpen minutesIn now => runAutoPrediction h s klines hourOpen minutesIn now
  | .post reqHour pred tsBody now => postLockHourly h s reqHour pred tsBody now
  | .reset minute second => resetTimer s minute second

/-- A state holds a committed prediction for hour `h`. -/
def committed (h : ℤ) (s : SrvState) : Prop :=
  s.lock.hour = h ∧ s.lock.prediction ≠ none

instance (h : ℤ) (s : SrvState) : Decidable (committed h s) := by
  unfold committed; infer_instance

/-- An event is a reset-timer firing inside its guard window
(first five seconds of the hour). -/
def earlyReset : LockEv → Prop
  | .reset minute second => minute = 0 ∧ second < 5
  | _ => False

instance (e : LockEv) : Decidable (earlyReset e) := by
  cases e <;> (unfold earlyReset; infer_instance)

/-! ### Trader discovery (`discoverTopTraders`) -/

/-- Per-wallet tally accumulated by the discovery scan
(`traderStats[wallet] = {wins, losses, totalSize, username}`). -/
structure TStat where
  wins : Nat
  losses : Nat
  totalSize : ℚ
  username : String
  deriving DecidableEq

/-- A ranked trader as produced by `discoverTopTraders`. -/
structure Trader where
  wallet : String
  username : String
  winRate : ℚ
  wins : Nat
  losses : Nat
  totalSize : ℚ
  deriving DecidableEq

/-- The `topTradersCache` global (`{wallets, lastDiscovery}`). -/
structure DiscCache where
  wallets : List Trader
  lastDiscovery : ℤ
  deriving DecidableEq

/-- Qualification filter of the ranking: at least 3 observed markets. -/
def qualifies (p : String × TStat) : Prop := 3 ≤ p.2.wins + p.2.losses

instance (p : String × TStat) : Decidable (qualifies p) := by
  unfold qualifies; infer_instance

/-- Observed win rate of a stats entry. -/
def statRate (p : String × TStat) : ℚ := (p.2.wins : ℚ) / ((p.2.wins : ℚ) + (p.2.losses : ℚ))

/-- Sort comparator of the ranking: `a` precedes `b` when its win rate is larger,
ties broken by larger total volume (the JS comparator
`rateB - rateA`, then `b.totalSize - a.totalSize`). -/
def rankBefore (a b : String × TStat) : Prop :=
  statRate b < statRate a ∨ (statRate a = statRate b ∧ b.2.totalSize ≤ a.2.totalSize)

instance : DecidableRel rankBefore := by
  intro a b; unfold rankBefore; infer_instance

instance : IsTotal (String × TStat) rankBefore := by
  constructor
  intro a b
  rcases lt_trichotomy (statRate a) (statRate b) with h | h | h
  · exact Or.inr (Or.inl h)
  · rcases le_total (b.2.totalSize) (a.2.totalSize) with h2 | h2
    · exact Or.inl (Or.inr ⟨h, h2⟩)
    · exact Or.inr (Or.inr ⟨h.symm, h2⟩)
  · exact Or.inl (Or.inl h)

instance : IsTrans (String × TStat) rankBefore := by
  constructor
  intro a b c hab hbc
  rcases hab with h1 | ⟨h1, h1'⟩ <;> rcases hbc with h2 | ⟨h2, h2'⟩
  · exact Or.inl (h2.trans h1)
  · exact Or.inl (h2 ▸ h1)
  · exact Or.inl (h1 ▸ h2)
  · exact Or.inr ⟨h1.trans h2, h2'.trans h1'⟩

/-- The record built for each ranked entry (`winRate = wins/(wins+losses)`). -/
def toTrader (p : String × TStat) : Trader :=
  ⟨p.1, p.2.username, statRate p, p.2.wins, p.2.losses, p.2.totalSize⟩

/-- Ranking step of `discoverTopTraders`: filter to ≥ 3 observed markets, sort
by descending win rate (volume tiebreak), keep the top 5, build records.
`Array.prototype.sort` is a stable sort (ES2019); `List.insertionSort` with the
reflexive-on-ties comparator has exactly that semantics. -/
def rankTraders (stats : List (String × TStat)) : List Trader :=
  ((((stats.filter (fun p => decide (qualifies p))).insertionSort rankBefore).take 5).map toTrader)

/-- Source `discoverTopTraders()`: serve a fresh non-empty cache unchanged
(rediscovery interval 300000 ms); otherwise rank the scanned stats and replace
the cache only when the ranking is non-empty. -/
def discoverTopTraders (cache : DiscCache) (now : ℤ) (stats : List (String × TStat)) : DiscCache :=
  if cache.wallets ≠ [] ∧ now - cache.lastDiscovery < 300000 then cache
  else
    let ranked := rankTraders stats
    if ranked ≠ [] then ⟨ranked, now⟩ else cache

/-! ### Whale-consensus aggregation (`GET /api/whale-trades`) -/

/-- A record returned by the holders source
(`{proxyWallet, outcome, size}` after `parseFloat`). -/
structure HolderRec where
  proxyWallet : String
  outcome : String
  size : ℚ
  deriving DecidableEq

/-- A record returned by the activity source
(`{eventSlug, type, side, outcome, usdcSize, size}`). -/
structure ActRec where
  eventSlug : String
  typ : String
  side : String
  outcome : String
  usdcSize : Option ℚ
  size : Option ℚ
  deriving DecidableEq

/-- JS `parseFloat(t.usdcSize || t.size || 0)`: first truthy of the chain. -/
def actSize (a : ActRec) : ℚ :=
  match a.usdcSize with
  | some u => if u ≠ 0 then u else (match a.size with | some s => s | none => 0)
  | none => (match a.size with | some s => s | none => 0)

/-- One entry of `voterDetails`. -/
structure Voter where
  username : String
  winRate : ℚ
  directionYes : Bool
  size : ℚ
  outcome : String
  deriving DecidableEq

/-- Accumulator of the aggregation (`yesVotes`, `noVotes`, `voterDetails`). -/
structure VoteState where
  yes : ℚ
  no : ℚ
  details : List Voter
  deriving DecidableEq

/-- Contribution weight: `(trader.winRate || 0.5) * size`. -/
def voteWeight (winRate size : ℚ) : ℚ := (if winRate = 0 then 1/2 else winRate) * size

/-- Holders branch, one holder record: if the wallet belongs to a top trader,
weight its position (`outcome === 'Up'` → YES) and push a voter detail. -/
def holdersStep (topTraders : List Trader) (st : VoteState) (hr : HolderRec) : VoteState :=
  match topTraders.find? (fun t => decide (t.wallet = hr.proxyWallet)) with
  | none => st
  | some t =>
    let dir := hr.outcome = "Up"
    let w := voteWeight t.winRate hr.size
    { yes := if dir then st.yes + w else st.yes
      no := if dir then st.no else st.no + w
      details := st.details ++ [⟨t.username, t.winRate, dir, hr.size, hr.outcome⟩] }

/-- Activity branch, one trade of trader `t`: direction from side/outcome,
skipped entirely when a voter detail with this trader's username exists. -/
def activityStep (t : Trader) (st : VoteState) (a : ActRec) : VoteState :=
  let dir := if a.side = "BUY" then a.outcome = "Up" else ¬(a.outcome = "Up")
  let w := voteWeight t.winRate (actSize a)
  if st.details.any (fun v => decide (v.username = t.username)) then st
  else
    { yes := if dir then st.yes + w else st.yes
      no := if dir then st.no else st.no + w
      details := st.details ++ [⟨t.username, t.winRate, decide dir, actSize a, a.outcome⟩] }

/-- The slot-trade filter of the activity branch
(`t.eventSlug === currentSlug && t.type === 'TRADE'`). -/
def slotTrades (acts : List ActRec) (slug : String) : List ActRec :=
  acts.filter (fun a => decide (a.eventSlug = slug ∧ a.typ = "TRADE"))

/-- The whole aggregation: holders pass over all holder records, then the
activity pass over the top 3 traders' filtered trades. -/
def whaleAggregate (topTraders : List Trader) (holders : List HolderRec)
    (acts : String → List ActRec) (slug : String) : VoteState :=
  let st0 := holders.foldl (holdersStep topTraders) ⟨0, 0, []⟩
  (topTraders.take 3).foldl (fun st t => (slotTrades (acts t.wallet) slug).foldl (activityStep t) st) st0

/-- The vote direction: `(yes > 0 || no > 0) ? (yes > no ? 'YES' : 'NO') : null`. -/
def whaleBet (st : VoteState) : Option Bool :=
  if 0 < st.yes ∨ 0 < st.no then some (decide (st.no < st.yes)) else none

/-- The vote confidence: `(yes+no) > 0 ? |yes-no|/(yes+no) : 0`. -/
def whaleConfidence (st : VoteState) : ℚ :=
  if 0 < st.yes + st.no then |st.yes - st.no| / (st.yes + st.no) else 0

/-! ## Helper lemmas about the scorer -/

lemma velDelta_nonneg (prices : List ℚ) :
    0 ≤ (velDelta prices).1 ∧ 0 ≤ (velDelta prices).2 := by
  unfold velDelta
  cases serverPriceVelocity prices with
  | none => norm_num
  | some v =>
    obtain ⟨vel, acc, sig⟩ := v
    cases sig <;> norm_num

lemma rsiDelta_nonneg (prices : List ℚ) :
    0 ≤ (rsiDelta prices).1 ∧ 0 ≤ (rsiDelta prices).2 := by
  unfold rsiDelta
  cases serverRsi prices with
  | none => norm_num
  | some r =>
    dsimp only
    split_ifs <;> norm_num

lemma emaXDelta_nonneg (prices : List ℚ) :
    0 ≤ (emaXDelta prices).1 ∧ 0 ≤ (emaXDelta prices).2 := by
  unfold emaXDelta
  cases serverEmaCrossover prices with
  | none => norm_num
  | some ec =>
    dsimp only
    split_ifs <;> norm_num

lemma macdDelta_nonneg (prices : List ℚ) :
    0 ≤ (macdDelta prices).1 ∧ 0 ≤ (macdDelta prices).2 := by
  unfold macdDelta
  cases serverMacd prices with
  | none => norm_num
  | some mc =>
    dsimp only
    split_ifs <;> norm_num

lemma bbDelta_nonneg (prices : List ℚ) :
    0 ≤ (bbDelta prices).1 ∧ 0 ≤ (bbDelta prices).2 := by
  unfold bbDelta
  cases serverBb prices with
  | none => norm_num
  | some b =>
    dsimp only
    split_ifs <;> norm_num

lemma stochDelta_nonneg (prices : List ℚ) :
    0 ≤ (stochDelta prices).1 ∧ 0 ≤ (stochDelta prices).2 := by
  unfold stochDelta
  cases serverStochRsi prices with
  | none => norm_num
  | some sr =>
    obtain ⟨k, sig⟩ := sr
    cases sig <;> norm_num

lemma ptbDelta_nonneg (prices : List ℚ) (ptb : Option ℚ) :
    0 ≤ (ptbDelta prices ptb).1 ∧ 0 ≤ (ptbDelta prices ptb).2 := by
  unfold ptbDelta
  cases ptb with
  | none => norm_num
  | some p =>
    dsimp only
    split_ifs <;> norm_num

lemma bullScoreOf_nonneg (prices : List ℚ) (ptb : Option ℚ) : 0 ≤ bullScoreOf prices ptb := by
  unfold bullScoreOf
  have h1 := velDelta_nonneg prices
  have h2 := rsiDelta_nonneg prices
  have h3 := emaXDelta_nonneg prices
  have h4 := macdDelta_nonneg prices
  have h5 := bbDelta_nonneg prices
  have h6 := stochDelta_nonneg prices
  have h7 := ptbDelta_nonneg prices ptb
  linarith [h1.1, h2.1, h3.1, h4.1, h5.1, h6.1, h7.1]

lemma bearScoreOf_nonneg (prices : List ℚ) (ptb : Option ℚ) : 0 ≤ bearScoreOf prices ptb := by
  unfold bearScoreOf
  have h1 := velDelta_nonneg prices
  have h2 := rsiDelta_nonneg prices
  have h3 := emaXDelta_nonneg prices
  have h4 := macdDelta_nonneg prices
  have h5 := bbDelta_nonneg prices
  have h6 := stochDelta_nonneg prices
  have h7 := ptbDelta_nonneg prices ptb
  linarith [h1.2, h2.2, h3.2, h4.2, h5.2, h6.2, h7.2]

lemma macdDelta_cases (prices : List ℚ) (h : 26 ≤ prices.length) :
    macdDelta prices = (3/2, 0) ∨ macdDelta prices = (0, 3/2) := by
  unfold macdDelta serverMacd
  rw [if_neg (by omega)]
  dsimp only
  split_ifs <;> simp

/-- The scorer's two tallies always sum to at least 3/2 on a valid input,
because the MACD block always fires. -/
lemma scoreSum_ge (prices : List ℚ) (ptb : Option ℚ) (h : 26 ≤ prices.length) :
    3/2 ≤ bullScoreOf prices ptb + bearScoreOf prices ptb := by
  have h1 := velDelta_nonneg prices
  have h2 := rsiDelta_nonneg prices
  have h3 := emaXDelta_nonneg prices
  have h5 := bbDelta_nonneg prices
  have h6 := stochDelta_nonneg prices
  have h7 := ptbDelta_nonneg prices ptb
  unfold bullScoreOf bearScoreOf
  rcases macdDelta_cases prices h with h4 | h4 <;> rw [h4] <;>
    simp only [Prod.fst, Prod.snd] <;>
    linarith [h1.1, h2.1, h3.1, h5.1, h6.1, h7.1, h1.2, h2.2, h3.2, h5.2, h6.2, h7.2]

/-! ## Claim C8 -/

/-- C8: for every price list with fewer than 26 elements and every reference
price, the scorer `serverMakePrediction` returns null. -/
theorem scorer_short_input_null (prices : List ℚ) (ptbPrice : Option ℚ)
    (h : prices.length < 26) : serverMakePrediction prices ptbPrice = none := by
  unfold serverMakePrediction
  rw [if_pos h]

/-- Witness for `scorer_short_input_null` at a concrete 3-point series. -/
theorem scorer_short_input_null_witness :
    ([(100 : ℚ), 101, 102]).length < 26 ∧
      serverMakePrediction [(100 : ℚ), 101, 102] (some 100) = none :=
  ⟨by decide, scorer_short_input_null [(100 : ℚ), 101, 102] (some 100) (by decide)⟩

/-! ## Claim C3 -/

/-- C3: the commit offset of `runAutoPrediction` follows the adaptive policy:
gap at least the clear threshold 150 gives the minimum wait 2 (the margin
adjustment cannot push it lower); gap at most the close threshold 30 gives the
maximum wait 15 when the margin adjustment does not apply; gaps in between
interpolate linearly `15 - ((gap-30)/(150-30))*(15-2)`; and a margin above 0.5
reduces the base offset by `margin*3`, floored at 2. -/
theorem lockAfter_policy (pd m : ℚ) :
    (150 ≤ pd → serverLockAfter pd m = 2) ∧
    (pd ≤ 30 → m ≤ 1/2 → serverLockAfter pd m = 15) ∧
    (30 < pd → pd < 150 → m ≤ 1/2 →
      serverLockAfter pd m = 15 - ((pd - 30) / (150 - 30)) * (15 - 2)) ∧
    (1/2 < m → serverLockAfter pd m =
      max 2 ((if 150 ≤ pd then 2 else if pd ≤ 30 then 15
              else 15 - ((pd - 30) / (150 - 30)) * (15 - 2)) - m * 3)) := by
  unfold serverLockAfter
  refine ⟨fun h150 => ?_, fun h30 hm2 => ?_, fun h30 h150 hm2 => ?_, fun hm2 => ?_⟩
  · rw [if_pos h150]
    split_ifs with h
    · rw [max_eq_left (by linarith)]
    · rfl
  · rw [if_neg (by linarith), if_pos h30, if_neg (by linarith)]
  · rw [if_neg (by linarith), if_neg (by linarith), if_neg (by linarith)]
  · rw [if_pos hm2]

/-! ## Claim C1 -/

/-- The 30-point strictly increasing series `[100, 101, ..., 129]`. -/
def c1prices : List ℚ :=
  [100, 101, 102, 103, 104, 105, 106, 107, 108, 109,
   110, 111, 112, 113, 114, 115, 116, 117, 118, 119,
   120, 121, 122, 123, 124, 125, 126, 127, 128, 129]

/-- Full evaluation of the scorer on the C1 scenario: RSI is 100 (bear 2.5) and
the Bollinger position is above 0.85 (bear 2), outweighing the bullish EMA
crossover state (1.5) and MACD (1.5); so the tally is bull 3 vs bear 4.5. -/
lemma c1_eval : serverMakePrediction c1prices (some 100) =
    some ⟨false, 59, 3, 9/2, 1/5⟩ := by decide

/-- C1 counterexample: on `[100..129]` with reference price 100 the scorer does
not return direction UP — `willBeat` is `false`, refuting the claimed
`direction UP` for this scenario. -/
theorem monotone30_counterexample :
    ¬ ∃ r, serverMakePrediction c1prices (some 100) = some r ∧ r.willBeat = true := by
  rintro ⟨r, hr, hw⟩
  rw [c1_eval] at hr
  cases hr
  exact absurd hw (by decide)

/-- C1 amended: on `[100..129]` with reference price 100 the scorer returns a
non-null result with direction DOWN (`willBeat = false`) and confidence 59,
which is strictly greater than 50. -/
theorem monotone30_prediction :
    ∃ r, serverMakePrediction c1prices (some 100) = some r ∧
      r.willBeat = false ∧ 50 < r.confidence :=
  ⟨_, c1_eval, rfl, by decide⟩

/-! ## Claim C10 -/

/-- C10 counterexample: on the 26-point all-zero price list the EMA-crossover
signal is null (the source's falsy test rejects EMA values equal to 0), so the
crossover block contributes nothing — refuting that the crossover signal is
non-null for every 26-point input. -/
theorem macd_floor_counterexample :
    (List.replicate 26 (0 : ℚ)).length = 26 ∧
      serverEmaCrossover (List.replicate 26 (0 : ℚ)) = none ∧
      emaXDelta (List.replicate 26 (0 : ℚ)) = (0, 0) := by decide

/-- C10 amended: for every price list with at least 26 elements the MACD signal
is non-null and contributes exactly 1.5 points to exactly one tally (the EMA
crossover may be null when an EMA value is 0, so only 1.5 is guaranteed);
hence `bullScore + bearScore ≥ 1.5` and the `|| 1` zero-denominator fallback in
the `bullPct` computation is unreachable. -/
theorem macd_floor (prices : List ℚ) (ptb : Option ℚ) (h : 26 ≤ prices.length) :
    serverMacd prices ≠ none ∧
    (macdDelta prices = (3/2, 0) ∨ macdDelta prices = (0, 3/2)) ∧
    3/2 ≤ bullScoreOf prices ptb + bearScoreOf prices ptb ∧
    ∃ r, serverMakePrediction prices ptb = some r ∧ r.bullScore + r.bearScore ≠ 0 := by
  have hsum := scoreSum_ge prices ptb h
  refine ⟨?_, macdDelta_cases prices h, hsum, ?_⟩
  · unfold serverMacd
    rw [if_neg (by omega)]
    exact Option.some_ne_none _
  · unfold serverMakePrediction
    rw [if_neg (by omega)]
    exact ⟨_, rfl, by dsimp only; linarith⟩

/-- Witness for `macd_floor` on a concrete 26-point list. -/
theorem macd_floor_witness :
    26 ≤ (List.replicate 26 (7 : ℚ)).length ∧
      (serverMacd (List.replicate 26 (7 : ℚ)) ≠ none ∧
       (macdDelta (List.replicate 26 (7 : ℚ)) = (3/2, 0) ∨
        macdDelta (List.replicate 26 (7 : ℚ)) = (0, 3/2)) ∧
       3/2 ≤ bullScoreOf (List.replicate 26 (7 : ℚ)) none +
          bearScoreOf (List.replicate 26 (7 : ℚ)) none ∧
       ∃ r, serverMakePrediction (List.replicate 26 (7 : ℚ)) none = some r ∧
          r.bullScore + r.bearScore ≠ 0) :=
  ⟨by decide, macd_floor (List.replicate 26 (7 : ℚ)) none (by decide)⟩

/-! ## Claim C9 -/

/-- The confidence/direction/margin contract of the scorer result, phrased as
the claim states it: `bullFraction = bullScore / max(1, bullScore+bearScore)`,
direction bull iff `bullFraction > 0.5`, `margin = |bullFraction - 0.5| * 2`,
`confidence = round(clamp(52 + margin*36, 50, 88))`, confidence in `50..88`. -/
def scorerFormulaSpec (prices : List ℚ) (ptb : Option ℚ) : Prop :=
  ∃ r, serverMakePrediction prices ptb = some r ∧
    (r.willBeat = true ↔ 1/2 < r.bullScore / max 1 (r.bullScore + r.bearScore)) ∧
    r.margin = |r.bullScore / max 1 (r.bullScore + r.bearScore) - 1/2| * 2 ∧
    r.confidence = jsRound (max 50 (min 88 (52 + r.margin * 36))) ∧
    50 ≤ r.confidence ∧ r.confidence ≤ 88

lemma jsRound_ge52 {x : ℚ} (h : 52 ≤ x) : 52 ≤ jsRound x :=
  Int.le_floor.mpr (by push_cast; linarith)

lemma jsRound_le88 {x : ℚ} (h : x ≤ 88) : jsRound x ≤ 88 :=
  Int.lt_add_one_iff.mp (Int.floor_lt.mpr (by push_cast; linarith))

/-- C9: for every price list with at least 26 elements and every reference
price the scorer result satisfies the claimed direction, margin and confidence
formulas, and its confidence always lies in the 50..88 band. -/
theorem scorer_confidence_formula (prices : List ℚ) (ptb : Option ℚ)
    (h : 26 ≤ prices.length) : scorerFormulaSpec prices ptb := by
  have hsum := scoreSum_ge prices ptb h
  have hbull := bullScoreOf_nonneg prices ptb
  have hbear := bearScoreOf_nonneg prices ptb
  unfold scorerFormulaSpec serverMakePrediction
  rw [if_neg (by omega)]
  set bull := bullScoreOf prices ptb with hbulldef
  set bear := bearScoreOf prices ptb with hbeardef
  have hpos : (0 : ℚ) < bull + bear := lt_of_lt_of_le (by norm_num) hsum
  have htot0 : bull + bear ≠ 0 := ne_of_gt hpos
  have hmax : max 1 (bull + bear) = bull + bear := max_eq_right (by linarith)
  dsimp only
  rw [if_neg htot0]
  set frac := bull / (bull + bear) with hfracdef
  set marg := |frac - 1/2| * 2 with hmargdef
  have hfrac0 : 0 ≤ frac := div_nonneg hbull hpos.le
  have hfrac1 : frac ≤ 1 := (div_le_one hpos).mpr (by linarith)
  have habs : |frac - 1/2| ≤ 1/2 := abs_le.mpr ⟨by linarith, by linarith⟩
  have hm0 : 0 ≤ marg := by rw [hmargdef]; positivity
  have hm1 : marg ≤ 1 := by rw [hmargdef]; linarith
  have hx52 : (52 : ℚ) ≤ 52 + marg * 36 := by linarith
  have hx88 : 52 + marg * 36 ≤ 88 := by linarith
  have hclamp : max 50 (min 88 (52 + marg * 36)) = 52 + marg * 36 := by
    rw [min_eq_right hx88, max_eq_right (by linarith)]
  refine ⟨_, rfl, ?hiff, ?hmarg, ?hconf, ?hlo, ?hhi⟩
  case hiff =>
    dsimp only
    rw [hmax]
    exact decide_eq_true_iff
  case hmarg =>
    dsimp only
    rw [hmax]
  case hconf => rfl
  case hlo =>
    dsimp only
    rw [hclamp]
    exact le_trans (by norm_num) (jsRound_ge52 hx52)
  case hhi =>
    dsimp only
    rw [hclamp]
    exact jsRound_le88 hx88

/-- Witness for `scorer_confidence_formula` on a concrete 26-point list. -/
theorem scorer_confidence_formula_witness :
    26 ≤ (List.replicate 26 (5 : ℚ)).length ∧
      scorerFormulaSpec (List.replicate 26 (5 : ℚ)) none :=
  ⟨by decide, scorer_confidence_formula (List.replicate 26 (5 : ℚ)) none (by decide)⟩

/-! ## Claim C2 -/

lemma lockStep_committed_eq (h : ℤ) (s : SrvState) (hc : committed h s) (e : LockEv)
    (he : ¬ earlyReset e) : lockStep h s e = s := by
  obtain ⟨h1, h2⟩ := hc
  cases e with
  | tick klines hourOpen minutesIn now =>
    show runAutoPrediction h s klines hourOpen minutesIn now = s
    unfold runAutoPrediction
    rw [if_pos (show s.lock.hour = h ∧ s.lock.prediction ≠ none from ⟨h1, h2⟩)]
  | post reqHour pred tsBody now =>
    show postLockHourly h s reqHour pred tsBody now = s
    unfold postLockHourly
    split_ifs with hg hl
    · exact absurd h1 hl
    · rfl
    · rfl
  | reset minute second =>
    show resetTimer s minute second = s
    unfold resetTimer
    rw [if_neg (show ¬ (minute = 0 ∧ second < 5) from he)]

/-- C2 amended: once a prediction is committed for the current hour, every
later scheduler tick, `POST /api/pred-lock-hourly` and reset-timer firing
outside the first five seconds of the hour leaves the whole server state
unchanged (in particular every tick after commit is a no-op); only a
reset-timer firing with `minutes === 0 && seconds < 5` can clear a committed
prediction within the window. -/
theorem lock_commit_final (h : ℤ) (s : SrvState) (hc : committed h s)
    (es : List LockEv) (hes : ∀ e ∈ es, ¬ earlyReset e) :
    es.foldl (lockStep h) s = s := by
  induction es with
  | nil => rfl
  | cons e tl ih =>
    rw [List.foldl_cons, lockStep_committed_eq h s hc e (hes e (by simp))]
    exact ih (fun x hx => hes x (by simp [hx]))

/-- Witness for `lock_commit_final`: a committed hour-10 state survives a tick,
a competing POST and a mid-hour reset firing. -/
theorem lock_commit_final_witness :
    committed 10 ⟨⟨10, some ⟨true, 60, 5, 2⟩, 7⟩, ⟨none, -1, 0⟩⟩ ∧
    (∀ e ∈ ([.tick none none 30 5, .post 10 (some ⟨false, 55, 1, 2⟩) (some 5) 9,
             .reset 30 2] : List LockEv), ¬ earlyReset e) ∧
    ([.tick none none 30 5, .post 10 (some ⟨false, 55, 1, 2⟩) (some 5) 9,
      .reset 30 2] : List LockEv).foldl (lockStep 10)
        ⟨⟨10, some ⟨true, 60, 5, 2⟩, 7⟩, ⟨none, -1, 0⟩⟩ =
      ⟨⟨10, some ⟨true, 60, 5, 2⟩, 7⟩, ⟨none, -1, 0⟩⟩ :=
  ⟨by decide, by decide,
    lock_commit_final 10 ⟨⟨10, some ⟨true, 60, 5, 2⟩, 7⟩, ⟨none, -1, 0⟩⟩ (by decide)
      [.tick none none 30 5, .post 10 (some ⟨false, 55, 1, 2⟩) (some 5) 9, .reset 30 2]
      (by decide)⟩

/-- C2 counterexample: starting from the initial server state, a
`POST /api/pred-lock-hourly` at hour 10 commits a prediction (a reachable
committed state), and a reset-timer firing at minute 0, second 3 of the same
hour — a later event in the same window — clears it back to the uncommitted
state, refuting the claim for the full set of three mutators. -/
theorem lock_commit_final_counterexample :
    committed 10 (lockStep 10 initialSrvState (.post 10 (some ⟨true, 60, 5, 2⟩) none 100)) ∧
    (lockStep 10 (lockStep 10 initialSrvState (.post 10 (some ⟨true, 60, 5, 2⟩) none 100))
        (.reset 0 3)).lock.prediction = none := by decide

/-! ## Claim C5 -/

lemma rankTraders_nil (stats : List (String × TStat))
    (hq : ∀ p ∈ stats, ¬ qualifies p) : rankTraders stats = [] := by
  unfold rankTraders
  rw [List.filter_eq_nil_iff.mpr (by simpa using hq)]
  rfl

/-- C5 amended: whenever the scan produces no participant with at least 3
observed outcomes, `discoverTopTraders` returns the prior cache unchanged (not
an error): an empty ranking when the prior cache was empty, but a non-empty
ranking from an earlier successful discovery is retained, not emptied. -/
theorem discovery_no_qualifier_keeps_cache (cache : DiscCache) (now : ℤ)
    (stats : List (String × TStat))
    (hq : ∀ p ∈ stats, p.2.wins + p.2.losses < 3) :
    discoverTopTraders cache now stats = cache := by
  unfold discoverTopTraders
  split_ifs with h1
  · rfl
  · have hr : rankTraders stats = [] := rankTraders_nil stats (fun p hp => by
      have := hq p hp
      unfold qualifies
      omega)
    simp [hr]

/-- Witness for `discovery_no_qualifier_keeps_cache`: a stale empty cache and a
scan holding only a 2-outcome participant yield the unchanged (empty) cache. -/
theorem discovery_no_qualifier_keeps_cache_witness :
    (∀ p ∈ ([("0xbb", ⟨2, 0, 50, "bb"⟩)] : List (String × TStat)),
      p.2.wins + p.2.losses < 3) ∧
    discoverTopTraders ⟨[], 0⟩ 900000 [("0xbb", ⟨2, 0, 50, "bb"⟩)] = ⟨[], 0⟩ :=
  ⟨by decide, discovery_no_qualifier_keeps_cache ⟨[], 0⟩ 900000
    [("0xbb", ⟨2, 0, 50, "bb"⟩)] (by decide)⟩

/-- A previously discovered trader, for the C5 counterexample. -/
def cachedTrader : Trader := ⟨"0xaaa", "whale", 1, 3, 0, 120⟩

/-- C5 counterexample: with a stale non-empty cache and a scan in which no
participant qualifies, `discoverTopTraders` returns the old non-empty ranking,
not an empty one — refuting the claim for non-empty prior cache states. -/
theorem discovery_empty_counterexample :
    (discoverTopTraders ⟨[cachedTrader], 0⟩ 900000
        [("0xbb", ⟨2, 0, 50, "bb"⟩)]).wallets ≠ [] ∧
    (discoverTopTraders ⟨[cachedTrader], 0⟩ 900000
        [("0xbb", ⟨2, 0, 50, "bb"⟩)]).wallets = [cachedTrader] := by decide

/-! ## Claim C7 -/

/-- The ranking order on produced trader records: strictly larger win rate
first, ties broken by larger total volume. -/
def rankedOrder (a b : Trader) : Prop :=
  b.winRate < a.winRate ∨ (a.winRate = b.winRate ∧ b.totalSize ≤ a.totalSize)

lemma rankTraders_mem {stats : List (String × TStat)} {t : Trader}
    (ht : t ∈ rankTraders stats) : ∃ p ∈ stats, qualifies p ∧ t = toTrader p := by
  unfold rankTraders at ht
  obtain ⟨p, hp5, hpt⟩ := List.mem_map.mp ht
  have hpS := List.mem_of_mem_take hp5
  have hpF := (List.perm_insertionSort rankBefore _).mem_iff.mp hpS
  have hm := List.mem_filter.mp hpF
  exact ⟨p, hm.1, of_decide_eq_true hm.2, hpt.symm⟩

lemma rankTraders_length (stats : List (String × TStat)) :
    (rankTraders stats).length =
      min 5 (stats.filter (fun p => decide (qualifies p))).length := by
  unfold rankTraders
  rw [List.length_map, List.length_take,
    (List.perm_insertionSort rankBefore _).length_eq]

lemma rankTraders_sorted (stats : List (String × TStat)) :
    (rankTraders stats).Pairwise rankedOrder := by
  unfold rankTraders
  refine List.Pairwise.map toTrader (fun a b hab => hab) ?_
  exact ((List.sorted_insertionSort rankBefore _).sublist (List.take_sublist 5 _))

lemma rankTraders_complete {stats : List (String × TStat)} {p : String × TStat}
    (hp : p ∈ stats) (hq : qualifies p)
    (hlen : (stats.filter (fun p => decide (qualifies p))).length ≤ 5) :
    toTrader p ∈ rankTraders stats := by
  unfold rankTraders
  have hpF : p ∈ stats.filter (fun p => decide (qualifies p)) :=
    List.mem_filter.mpr ⟨hp, decide_eq_true hq⟩
  have hpS := (List.perm_insertionSort rankBefore _).mem_iff.mpr hpF
  have hSlen : ((stats.filter (fun p => decide (qualifies p))).insertionSort
      rankBefore).length ≤ 5 := by
    rw [(List.perm_insertionSort rankBefore _).length_eq]; exact hlen
  rw [List.take_of_length_le hSlen]
  exact List.mem_map_of_mem toTrader hpS

/-- The full ranking contract of `discoverTopTraders` as the claim states it:
the ranking consists exactly of records built from qualifying stats entries
(wins + losses ≥ 3), has length `min 5 (#qualifying)`, is sorted by descending
win rate with descending-volume tiebreak, never contains a wallet of a
non-qualifying participant, and contains every qualifying participant whenever
at most 5 qualify. -/
def rankingSpec (stats : List (String × TStat)) : Prop :=
  (∀ t ∈ rankTraders stats, ∃ p ∈ stats, qualifies p ∧ t = toTrader p) ∧
  (rankTraders stats).length =
    min 5 (stats.filter (fun p => decide (qualifies p))).length ∧
  (rankTraders stats).Pairwise rankedOrder ∧
  (∀ p ∈ stats, ¬ qualifies p → ∀ t ∈ rankTraders stats, t.wallet ≠ p.1) ∧
  (∀ p ∈ stats, qualifies p →
    (stats.filter (fun p => decide (qualifies p))).length ≤ 5 →
      toTrader p ∈ rankTraders stats)

/-- C7: for every trader-statistics map produced by a discovery scan (wallet
keys are unique), the ranking contains exactly the participants with at least 3
observed outcomes — a participant with fewer is excluded even with a 100% win
rate — sorted by descending win rate with descending-volume tiebreak, truncated
to the top 5. -/
theorem discovery_ranking_rule (stats : List (String × TStat))
    (hnd : (stats.map Prod.fst).Nodup) : rankingSpec stats := by
  refine ⟨fun t ht => rankTraders_mem ht, rankTraders_length stats,
    rankTraders_sorted stats, ?_, fun p hp hq hlen => rankTraders_complete hp hq hlen⟩
  intro p hp hnq t ht heq
  obtain ⟨q, hqs, hqq, hqt⟩ := rankTraders_mem ht
  have hw : q.1 = p.1 := by
    have : t.wallet = q.1 := by rw [hqt]; rfl
    rw [← this, heq]
  have := List.inj_on_of_nodup_map hnd hqs hp hw
  exact hnq (this ▸ hqq)

/-- Witness for `discovery_ranking_rule` on a concrete stats map: a 3-0
participant, a 1-0 participant (excluded despite the 100% rate) and a 2-2
participant. -/
theorem discovery_ranking_rule_witness :
    (([("w1", ⟨3, 0, 10, "alice"⟩), ("w2", ⟨1, 0, 99, "bob"⟩),
       ("w3", ⟨2, 2, 7, "carl"⟩)] : List (String × TStat)).map Prod.fst).Nodup ∧
    rankingSpec [("w1", ⟨3, 0, 10, "alice"⟩), ("w2", ⟨1, 0, 99, "bob"⟩),
       ("w3", ⟨2, 2, 7, "carl"⟩)] :=
  ⟨by decide, discovery_ranking_rule _ (by decide)⟩

/-! ## Claim C4 -/

lemma voteWeight_nonneg {wr sz : ℚ} (hw : 0 ≤ wr) (hs : 0 ≤ sz) :
    0 ≤ voteWeight wr sz := by
  unfold voteWeight
  split_ifs
  · linarith
  · exact mul_nonneg hw hs

lemma holdersStep_nonneg {tT : List Trader} {st : VoteState} {hr : HolderRec}
    (hw : ∀ t ∈ tT, 0 ≤ t.winRate) (hs : 0 ≤ hr.size)
    (hy : 0 ≤ st.yes) (hn : 0 ≤ st.no) :
    0 ≤ (holdersStep tT st hr).yes ∧ 0 ≤ (holdersStep tT st hr).no := by
  unfold holdersStep
  cases hf : tT.find? (fun t => decide (t.wallet = hr.proxyWallet)) with
  | none => exact ⟨hy, hn⟩
  | some t =>
    have ht : t ∈ tT := List.mem_of_find?_eq_some hf
    have hwt := voteWeight_nonneg (hw t ht) hs
    dsimp only
    split_ifs <;> constructor <;> (try dsimp only) <;> linarith

lemma holdersFold_nonneg {tT : List Trader} (hw : ∀ t ∈ tT, 0 ≤ t.winRate)
    (holders : List HolderRec) (hs : ∀ hr ∈ holders, 0 ≤ hr.size)
    {st : VoteState} (hy : 0 ≤ st.yes) (hn : 0 ≤ st.no) :
    0 ≤ (holders.foldl (holdersStep tT) st).yes ∧
      0 ≤ (holders.foldl (holdersStep tT) st).no := by
  induction holders generalizing st with
  | nil => exact ⟨hy, hn⟩
  | cons hr tl ih =>
    rw [List.foldl_cons]
    have hst := holdersStep_nonneg hw (hs hr (by simp)) hy hn
    exact ih (fun x hx => hs x (by simp [hx])) hst.1 hst.2

lemma activityStep_nonneg {t : Trader} {st : VoteState} {a : ActRec}
    (hw : 0 ≤ t.winRate) (hs : 0 ≤ actSize a)
    (hy : 0 ≤ st.yes) (hn : 0 ≤ st.no) :
    0 ≤ (activityStep t st a).yes ∧ 0 ≤ (activityStep t st a).no := by
  unfold activityStep
  have hwt := voteWeight_nonneg hw hs
  dsimp only
  split_ifs <;> constructor <;> (try dsimp only) <;> linarith

lemma activityFold_nonneg {t : Trader} (hw : 0 ≤ t.winRate)
    (trades : List ActRec) (hs : ∀ a ∈ trades, 0 ≤ actSize a)
    {st : VoteState} (hy : 0 ≤ st.yes) (hn : 0 ≤ st.no) :
    0 ≤ (trades.foldl (activityStep t) st).yes ∧
      0 ≤ (trades.foldl (activityStep t) st).no := by
  induction trades generalizing st with
  | nil => exact ⟨hy, hn⟩
  | cons a tl ih =>
    rw [List.foldl_cons]
    have hst := activityStep_nonneg hw (hs a (by simp)) hy hn
    exact ih (fun x hx => hs x (by simp [hx])) hst.1 hst.2

lemma activityOuter_nonneg (ts : List Trader) (hw : ∀ t ∈ ts, 0 ≤ t.winRate)
    (acts : String → List ActRec) (slug : String)
    (ha : ∀ w, ∀ a ∈ acts w, 0 ≤ actSize a)
    {st : VoteState} (hy : 0 ≤ st.yes) (hn : 0 ≤ st.no) :
    0 ≤ (ts.foldl (fun st t =>
        (slotTrades (acts t.wallet) slug).foldl (activityStep t) st) st).yes ∧
    0 ≤ (ts.foldl (fun st t =>
        (slotTrades (acts t.wallet) slug).foldl (activityStep t) st) st).no := by
  induction ts generalizing st with
  | nil => exact ⟨hy, hn⟩
  | cons t tl ih =>
    rw [List.foldl_cons]
    have hst := activityFold_nonneg (hw t (by simp))
      (slotTrades (acts t.wallet) slug)
      (fun a haa => ha t.wallet a (List.mem_filter.mp haa).1) hy hn
    exact ih (fun x hx => hw x (by simp [hx])) hst.1 hst.2

lemma whaleAggregate_nonneg (tT : List Trader) (holders : List HolderRec)
    (acts : String → List ActRec) (slug : String)
    (hw : ∀ t ∈ tT, 0 ≤ t.winRate) (hh : ∀ hr ∈ holders, 0 ≤ hr.size)
    (ha : ∀ w, ∀ a ∈ acts w, 0 ≤ actSize a) :
    0 ≤ (whaleAggregate tT holders acts slug).yes ∧
      0 ≤ (whaleAggregate tT holders acts slug).no := by
  unfold whaleAggregate
  have h0 := @holdersFold_nonneg tT hw holders hh ⟨0, 0, []⟩ le_rfl le_rfl
  exact activityOuter_nonneg (tT.take 3)
    (fun t ht => hw t (List.mem_of_mem_take ht)) acts slug ha h0.1 h0.2

/-- The vote-direction/confidence contract as the claim states it, with the
tie corrected: YES exactly when the yes-weight is strictly larger, null exactly
when both weights are zero, NO otherwise (so an exact nonzero tie returns NO,
not null), and `confidence = |yes-no|/(yes+no)` with 0 when both are zero. -/
def whaleVoteSpec (st : VoteState) : Prop :=
  (whaleBet st = none ↔ st.yes = 0 ∧ st.no = 0) ∧
  (whaleBet st = some true ↔ st.no < st.yes) ∧
  (whaleBet st = some false ↔ (st.yes ≠ 0 ∨ st.no ≠ 0) ∧ st.yes ≤ st.no) ∧
  whaleConfidence st =
    (if st.yes = 0 ∧ st.no = 0 then 0 else |st.yes - st.no| / (st.yes + st.no))

/-- C4 amended: for every set of holder and activity records with non-negative
sizes processed against ranked traders with non-negative win rates, the
returned direction is YES iff the yes-weight is strictly larger, null iff no
weight was accumulated, and NO otherwise — an exact nonzero tie yields NO, not
null; the confidence equals `|yes-no|/(yes+no)` and 0 when both weights are
zero. -/
theorem whale_vote_rule (tT : List Trader) (holders : List HolderRec)
    (acts : String → List ActRec) (slug : String)
    (hw : ∀ t ∈ tT, 0 ≤ t.winRate) (hh : ∀ hr ∈ holders, 0 ≤ hr.size)
    (ha : ∀ w, ∀ a ∈ acts w, 0 ≤ actSize a) :
    whaleVoteSpec (whaleAggregate tT holders acts slug) := by
  obtain ⟨hy, hn⟩ := whaleAggregate_nonneg tT holders acts slug hw hh ha
  set st := whaleAggregate tT holders acts slug
  have hguard : (0 < st.yes ∨ 0 < st.no) ↔ ¬ (st.yes = 0 ∧ st.no = 0) := by
    constructor
    · rintro (h | h) ⟨h1, h2⟩
      · rw [h1] at h; exact lt_irrefl 0 h
      · rw [h2] at h; exact lt_irrefl 0 h
    · intro h
      by_contra hno
      push_neg at hno
      exact h ⟨le_antisymm hno.1 hy, le_antisymm hno.2 hn⟩
  unfold whaleVoteSpec whaleBet whaleConfidence
  refine ⟨?_, ?_, ?_, ?_⟩
  · split_ifs with hg
    · constructor
      · intro hcon; exact absurd hcon (by simp)
      · intro hc; exact absurd hc (hguard.mp hg)
    · rcases not_or.mp hg with ⟨h1, h2⟩
      simp only [true_iff]
      exact ⟨le_antisymm (not_lt.mp h1) hy, le_antisymm (not_lt.mp h2) hn⟩
  · split_ifs with hg
    · simp only [Option.some.injEq, decide_eq_true_eq]
    · rcases not_or.mp hg with ⟨h1, h2⟩
      have hy0 : st.yes = 0 := le_antisymm (not_lt.mp h1) hy
      have hn0 : st.no = 0 := le_antisymm (not_lt.mp h2) hn
      simp [hy0, hn0]
  · split_ifs with hg
    · have hne : st.yes ≠ 0 ∨ st.no ≠ 0 := not_and_or.mp (hguard.mp hg)
      simp only [Option.some.injEq, decide_eq_false_iff_not, not_lt]
      exact ⟨fun h => ⟨hne, h⟩, fun h => h.2⟩
    · rcases not_or.mp hg with ⟨h1, h2⟩
      have hy0 : st.yes = 0 := le_antisymm (not_lt.mp h1) hy
      have hn0 : st.no = 0 := le_antisymm (not_lt.mp h2) hn
      simp [hy0, hn0]
  · by_cases hz : st.yes = 0 ∧ st.no = 0
    · rw [if_neg (show ¬ 0 < st.yes + st.no by rw [hz.1, hz.2]; norm_num), if_pos hz]
    · have hpos : 0 < st.yes + st.no := by
        rcases not_and_or.mp hz with h | h
        · exact add_pos_of_pos_of_nonneg (lt_of_le_of_ne hy (Ne.symm h)) hn
        · exact add_pos_of_nonneg_of_pos hy (lt_of_le_of_ne hn (Ne.symm h))
      rw [if_pos hpos, if_neg hz]

/-- Two equally rated traders, for the C4 scenario. -/
def traderA : Trader := ⟨"0xa", "alice", 1/2, 1, 1, 10⟩

/-- Second trader of the C4 scenario. -/
def traderB : Trader := ⟨"0xb", "bob", 1/2, 1, 1, 10⟩

/-- C4 counterexample: with an exactly balanced book (both traders hold equal
weighted positions on opposite sides) the aggregation returns direction NO even
though neither side's weight is strictly larger — refuting the claim that the
returned direction is always the side with strictly larger weight or null. -/
theorem whale_vote_counterexample :
    whaleBet (whaleAggregate [traderA, traderB]
      [⟨"0xa", "Up", 10⟩, ⟨"0xb", "Down", 10⟩] (fun _ => []) "s") = some false ∧
    (whaleAggregate [traderA, traderB]
      [⟨"0xa", "Up", 10⟩, ⟨"0xb", "Down", 10⟩] (fun _ => []) "s").yes =
      (whaleAggregate [traderA, traderB]
        [⟨"0xa", "Up", 10⟩, ⟨"0xb", "Down", 10⟩] (fun _ => []) "s").no ∧
    (whaleAggregate [traderA, traderB]
      [⟨"0xa", "Up", 10⟩, ⟨"0xb", "Down", 10⟩] (fun _ => []) "s").no ≠ 0 := by decide

/-- Witness for `whale_vote_rule` on a concrete one-holder book. -/
theorem whale_vote_rule_witness :
    (∀ t ∈ [traderA], 0 ≤ t.winRate) ∧
    (∀ hr ∈ ([⟨"0xa", "Up", 10⟩] : List HolderRec), 0 ≤ hr.size) ∧
    (∀ _w : String, ∀ a ∈ ([] : List ActRec), 0 ≤ actSize a) ∧
    whaleVoteSpec (whaleAggregate [traderA] [⟨"0xa", "Up", 10⟩] (fun _ => []) "s") :=
  ⟨by decide, by decide, fun _ a ha => absurd ha (List.not_mem_nil a),
    whale_vote_rule [traderA] [⟨"0xa", "Up", 10⟩] (fun _ => []) "s"
      (by decide) (by decide) (fun _ a ha => absurd ha (List.not_mem_nil a))⟩

/-! ## Claim C6 -/

lemma find?_wallet_self {tT : List Trader} {t : Trader}
    (hnd : (tT.map Trader.wallet).Nodup) (ht : t ∈ tT) :
    tT.find? (fun u => decide (u.wallet = t.wallet)) = some t := by
  induction tT with
  | nil => cases ht
  | cons u tl ih =>
    by_cases hu : u.wallet = t.wallet
    · have hut : u = t := by
        rcases List.mem_cons.mp ht with rfl | htl
        · rfl
        · exfalso
          have hmem : t.wallet ∈ tl.map Trader.wallet := List.mem_map_of_mem _ htl
          rw [← hu] at hmem
          exact (List.nodup_cons.mp hnd).1 hmem
      simp [List.find?_cons, hu, hut]
    · have htl : t ∈ tl := by
        rcases List.mem_cons.mp ht with rfl | htl
        · exact absurd rfl hu
        · exact htl
      rw [List.find?_cons, decide_eq_false hu]
      exact ih (List.nodup_cons.mp hnd).2 htl

lemma details_mono_holdersStep {tT : List Trader} {st : VoteState} {hr : HolderRec}
    {v : Voter} (hv : v ∈ st.details) : v ∈ (holdersStep tT st hr).details := by
  unfold holdersStep
  cases tT.find? (fun u => decide (u.wallet = hr.proxyWallet)) with
  | none => exact hv
  | some t =>
    dsimp only
    exact List.mem_append_left _ hv

lemma details_mono_holdersFold {tT : List Trader} {holders : List HolderRec}
    {st : VoteState} {v : Voter} (hv : v ∈ st.details) :
    v ∈ (holders.foldl (holdersStep tT) st).details := by
  induction holders generalizing st with
  | nil => exact hv
  | cons hr tl ih => exact ih (details_mono_holdersStep hv)

lemma details_mono_activityStep {t : Trader} {st : VoteState} {a : ActRec}
    {v : Voter} (hv : v ∈ st.details) : v ∈ (activityStep t st a).details := by
  unfold activityStep
  dsimp only
  split_ifs <;>
    first
      | exact hv
      | exact List.mem_append_left _ hv

lemma details_mono_activityFold {t : Trader} {trades : List ActRec}
    {st : VoteState} {v : Voter} (hv : v ∈ st.details) :
    v ∈ (trades.foldl (activityStep t) st).details := by
  induction trades generalizing st with
  | nil => exact hv
  | cons a tl ih => exact ih (details_mono_activityStep hv)

lemma holdersFold_entry {tT : List Trader} {t : Trader}
    (hnd : (tT.map Trader.wallet).Nodup) (ht : t ∈ tT)
    (holders : List HolderRec) (hh : ∃ hr ∈ holders, hr.proxyWallet = t.wallet)
    (st : VoteState) :
    ∃ v ∈ (holders.foldl (holdersStep tT) st).details, v.username = t.username := by
  induction holders generalizing st with
  | nil =>
    obtain ⟨hr, hmem, _⟩ := hh
    cases hmem
  | cons hr tl ih =>
    rw [List.foldl_cons]
    by_cases hm : hr.proxyWallet = t.wallet
    · have hstep : ∃ v ∈ (holdersStep tT st hr).details, v.username = t.username := by
        unfold holdersStep
        rw [hm, find?_wallet_self hnd ht]
        dsimp only
        exact ⟨_, List.mem_append_right _ (List.mem_singleton_self _), rfl⟩
      obtain ⟨v, hv, hvu⟩ := hstep
      exact ⟨v, details_mono_holdersFold hv, hvu⟩
    · obtain ⟨hr', hmem, hw⟩ := hh
      rcases List.mem_cons.mp hmem with rfl | htl
      · exact absurd hw hm
      · exact ih ⟨hr', htl, hw⟩ _

lemma activityStep_skip {t : Trader} {st : VoteState} {a : ActRec}
    (hex : ∃ v ∈ st.details, v.username = t.username) : activityStep t st a = st := by
  obtain ⟨v, hv, hvu⟩ := hex
  unfold activityStep
  rw [if_pos (List.any_eq_true.mpr ⟨v, hv, decide_eq_true hvu⟩)]

lemma activityFold_skip {t : Trader} {trades : List ActRec} {st : VoteState}
    (hex : ∃ v ∈ st.details, v.username = t.username) :
    trades.foldl (activityStep t) st = st := by
  induction trades with
  | nil => rfl
  | cons a tl ih =>
    rw [List.foldl_cons, activityStep_skip hex]
    exact ih

lemma activityOuter_congr {tT : List Trader} {t : Trader}
    (acts : String → List ActRec) (slug : String)
    (hnd : (tT.map Trader.wallet).Nodup) (ht : t ∈ tT)
    (ts : List Trader) (hsub : ∀ u ∈ ts, u ∈ tT) (st : VoteState)
    (hex : ∃ v ∈ st.details, v.username = t.username) :
    ts.foldl (fun st u => (slotTrades (acts u.wallet) slug).foldl (activityStep u) st) st =
    ts.foldl (fun st u =>
      (slotTrades ((fun w => if w = t.wallet then [] else acts w) u.wallet) slug).foldl
        (activityStep u) st) st := by
  induction ts generalizing st with
  | nil => rfl
  | cons u tl ih =>
    rw [List.foldl_cons, List.foldl_cons]
    by_cases hu : u.wallet = t.wallet
    · have hut : u = t :=
        List.inj_on_of_nodup_map hnd (hsub u (by simp)) ht hu
      have hskip : (slotTrades (acts u.wallet) slug).foldl (activityStep u) st = st :=
        activityFold_skip (by rw [hut]; exact hex)
      have hskip' : (slotTrades ((fun w => if w = t.wallet then [] else acts w) u.wallet)
          slug).foldl (activityStep u) st = st := by
        dsimp only
        rw [if_pos hu]
        rfl
      rw [hskip, hskip']
      exact ih (fun x hx => hsub x (by simp [hx])) st hex
    · have hsame : (fun w => if w = t.wallet then [] else acts w) u.wallet = acts u.wallet := by
        dsimp only
        rw [if_neg hu]
      rw [hsame]
      obtain ⟨v, hv, hvu⟩ := hex
      exact ih (fun x hx => hsub x (by simp [hx])) _
        ⟨v, details_mono_activityFold hv, hvu⟩

/-- C6: a ranked trader whose position was already attributed from the holders
source contributes nothing from the activity source for the same window:
replacing that trader's entire activity feed by the empty list leaves the
aggregation result (weights and voter details) unchanged. -/
theorem whale_no_double_count (tT : List Trader) (holders : List HolderRec)
    (acts : String → List ActRec) (slug : String) (t : Trader) (ht : t ∈ tT)
    (hnd : (tT.map Trader.wallet).Nodup)
    (hh : ∃ hr ∈ holders, hr.proxyWallet = t.wallet) :
    whaleAggregate tT holders acts slug =
      whaleAggregate tT holders (fun w => if w = t.wallet then [] else acts w) slug := by
  unfold whaleAggregate
  exact activityOuter_congr acts slug hnd ht (tT.take 3)
    (fun u hu => List.mem_of_mem_take hu) _
    (holdersFold_entry hnd ht holders hh ⟨0, 0, []⟩)

/-- A ranked trader for the C6 witness. -/
def traderC : Trader := ⟨"0xc", "carol", 1, 3, 0, 30⟩

/-- An activity trade of trader C in the current window, for the C6 witness. -/
def tradeC : ActRec := ⟨"btc-updown-5m-1", "TRADE", "BUY", "Up", some 4, none⟩

/-- Witness for `whale_no_double_count`: trader C is attributed from the
holders source, so her activity trade adds nothing. -/
theorem whale_no_double_count_witness :
    traderC ∈ [traderC] ∧
    (([traderC] : List Trader).map Trader.wallet).Nodup ∧
    (∃ hr ∈ ([⟨"0xc", "Up", 10⟩] : List HolderRec), hr.proxyWallet = traderC.wallet) ∧
    whaleAggregate [traderC] [⟨"0xc", "Up", 10⟩]
        (fun _ => [tradeC]) "btc-updown-5m-1" =
      whaleAggregate [traderC] [⟨"0xc", "Up", 10⟩]
        (fun w => if w = traderC.wallet then [] else [tradeC]) "btc-updown-5m-1" :=
  ⟨by decide, by decide, by decide,
    whale_no_double_count [traderC] [⟨"0xc", "Up", 10⟩] (fun _ => [tradeC])
      "btc-updown-5m-1" traderC (by decide) (by decide) (by decide)⟩

end Bott
